import Mathlib

/-!
# Verification of the Shellsort `qsort` from `src/sqlite3/libc/stdlib.h`

The C source is a single routine: a Shellsort with the Gonnet & Baeza-Yates
gap sequence, operating in place on an untyped buffer of `nel` elements of
`width` bytes each, driven by a three-way comparator.

We embed the routine shallowly:

* the byte buffer is a `List Nat` (one entry per `char`);
* pointers into the buffer become byte offsets (`Nat`);
* the comparator receives the `width`-byte slice starting at each of the two
  offsets the C code passes by pointer;
* every loop of the C code becomes a structurally recursive function with an
  explicit fuel argument chosen at the call site to be provably sufficient
  (the C loops terminate, so with enough fuel the embedding computes exactly
  the loop's result);
* the 64-bit unsigned arithmetic of the gap recurrence (`5ull * gap - 1`)
  is modelled with explicit `% 2 ^ 64` wraparound;
* in addition to the final buffer, the embedding returns a trace of events:
  one `Ev.cmp` per comparator invocation (recording the current `wgap` and
  the two byte offsets passed) and one `Ev.swap` per element swap, so that
  claims about which comparisons happen, about in-bounds accesses, and about
  the absence of swaps can be stated.
-/

/-- Events observed during a call: a comparator invocation `cmp wgap a b`
(the comparator receives pointers to offsets `a` and `b`, with the current
byte gap `wgap`), or a `width`-byte swap of the elements at offsets `a`, `b`. -/
inductive Ev where
  | cmp (wgap a b : Nat)
  | swap (a b : Nat)
deriving DecidableEq, Repr

/-- The `width` bytes starting at byte offset `off`: what the C comparator
can read through a pointer to one element. -/
def readBytes (buf : List Nat) (off len : Nat) : List Nat :=
  (buf.drop off).take len

/-- The byte-by-byte swap loop of the source:
`s = width; do { char tmp = *a; *a++ = *b; *b++ = tmp; } while (--s);`
modelled by recursion on the remaining count `s` (for `s = width ≥ 1` this
runs exactly `width` times, as the do-while does). -/
def swapLoop (a b : Nat) : Nat → List Nat → List Nat
  | 0, buf => buf
  | s + 1, buf =>
      let tmp := buf.getD a 0
      let buf1 := buf.set a (buf.getD b 0)
      let buf2 := buf1.set b tmp
      swapLoop (a + 1) (b + 1) s buf2

/-- The backward walk
`for (size_t j = i; !__builtin_sub_overflow(j, wgap, &j);) { ... }`:
exit when `j < wgap` (the subtraction would overflow), otherwise
`j := j - wgap`, compare the elements at `j` and `j + wgap`, break when the
comparator returns `≤ 0`, otherwise swap them and continue.  `fuel` is the
recursion allowance; the top-level call passes `i + 1`, which suffices
because `j` strictly decreases by `wgap ≥ 1` each iteration. -/
def innerLoop (comp : List Nat → List Nat → Int) (width wgap : Nat) :
    Nat → Nat → List Nat → List Nat × List Ev
  | 0, _, buf => (buf, [])
  | fuel + 1, j, buf =>
      if j < wgap then (buf, [])
      else
        let a := j - wgap
        let b := j
        if comp (readBytes buf a width) (readBytes buf b width) ≤ 0 then
          (buf, [Ev.cmp wgap a b])
        else
          let buf' := swapLoop a b width buf
          let r := innerLoop comp width wgap fuel a buf'
          (r.1, Ev.cmp wgap a b :: Ev.swap a b :: r.2)

/-- The pass `for (size_t i = wgap; i < wnel; i += width)`, running the
backward walk at each starting offset `i`.  Fuel `wnel` is passed by the
outer loop; since `i` advances by `width ≥ 1` per iteration, that is enough. -/
def passLoop (comp : List Nat → List Nat → Int) (width wgap wnel : Nat) :
    Nat → Nat → List Nat → List Nat × List Ev
  | 0, _, buf => (buf, [])
  | fuel + 1, i, buf =>
      if i < wnel then
        let p := innerLoop comp width wgap (i + 1) i buf
        let r := passLoop comp width wgap wnel fuel (i + width) p.1
        (r.1, p.2 ++ r.2)
      else (buf, [])

/-- `gap = (5ull * gap - 1) / 11;` — the Gonnet & Baeza-Yates recurrence,
computed in 64-bit unsigned arithmetic: the multiplication and the
subtraction of 1 wrap modulo `2 ^ 64` (in `Nat` we render the wrapping
`x - 1` as `(x + (2 ^ 64 - 1)) % 2 ^ 64`), the division is exact floor. -/
def gapStep (gap : Nat) : Nat :=
  (5 * gap % 2 ^ 64 + (2 ^ 64 - 1)) % 2 ^ 64 / 11

/-- The updated gap including the clamp `if (gap == 0) gap = 1;`. -/
def gapNext (gap : Nat) : Nat :=
  if gapStep gap = 0 then 1 else gapStep gap

/-- The outer loop `while (gap > 1) { gap = ...; wgap = width * gap; pass }`.
Fuel `nel + 1` is passed at top level; the gap strictly decreases on every
iteration (`gapNext_lt` below), so that is enough. -/
def outerLoop (comp : List Nat → List Nat → Int) (width wnel : Nat) :
    Nat → Nat → List Nat → List Nat × List Ev
  | 0, _, buf => (buf, [])
  | fuel + 1, gap, buf =>
      if 1 < gap then
        let gap' := gapNext gap
        let wgap := width * gap'
        let p := passLoop comp width wgap wnel wnel wgap buf
        let r := outerLoop comp width wnel fuel gap' p.1
        (r.1, p.2 ++ r.2)
      else (buf, [])

/-- The full routine together with its observation trace:
`wnel = width * nel`, `gap = nel`, then the outer loop. -/
def qsortT (buf : List Nat) (nel width : Nat)
    (comp : List Nat → List Nat → Int) : List Nat × List Ev :=
  outerLoop comp width (width * nel) (nel + 1) nel buf

/-- The buffer contents after `qsort(base, nel, width, comp)` returns. -/
def qsort (buf : List Nat) (nel width : Nat)
    (comp : List Nat → List Nat → Int) : List Nat :=
  (qsortT buf nel width comp).1

/-- The buffer viewed as its `nel` elements of `width` bytes each. -/
def chunks (w : Nat) : Nat → List Nat → List (List Nat)
  | 0, _ => []
  | n + 1, l => l.take w :: chunks w n (l.drop w)

/-- Element number `t` of the buffer: the `width`-byte slice at offset
`w * t`. -/
def elemAt (w : Nat) (buf : List Nat) (t : Nat) : List Nat :=
  readBytes buf (w * t) w

/-- The sequence of gap values used by the successive passes of the outer
loop when entered with the given fuel and initial `gap` (mirroring
`outerLoop`: while `gap > 1`, the pass runs with `gapNext gap`). -/
def gapList : Nat → Nat → List Nat
  | 0, _ => []
  | fuel + 1, gap =>
      if 1 < gap then gapNext gap :: gapList fuel (gapNext gap) else []

/-- Well-formedness of an observed event for a buffer of `nel` elements of
`width` bytes: the two offsets are the starts of complete in-bounds
elements, `b` exactly `width * g` bytes after `a` for the pass's gap
`g ≥ 1`. -/
def EvOk (width nel : Nat) : Ev → Prop
  | .cmp wg a b =>
      ∃ g k, 1 ≤ g ∧ wg = width * g ∧ a = width * k ∧ b = a + width * g ∧
        b + width ≤ width * nel
  | .swap a b =>
      ∃ g k, 1 ≤ g ∧ a = width * k ∧ b = a + width * g ∧ 1 ≤ g ∧
        b + width ≤ width * nel

/-- The properties of a three-way comparator that encodes a strict weak
ordering, expressed on the reflexive relation `comp a b ≤ 0` ("a need not
follow b"): it is total (by asymmetry of the strict order) and transitive
(by transitivity of the strict order together with transitivity of
incomparability). -/
structure IsWeakComparator (comp : List Nat → List Nat → Int) : Prop where
  total : ∀ a b, comp a b ≤ 0 ∨ comp b a ≤ 0
  trans : ∀ a b c, comp a b ≤ 0 → comp b c ≤ 0 → comp a c ≤ 0

/-- A three-way comparator obtained from a numeric key. -/
def keyComp (key : List Nat → Nat) : List Nat → List Nat → Int :=
  fun a b => if key a < key b then -1 else if key b < key a then 1 else 0

/-- Any key-based comparator encodes a (non-strict total preorder, hence)
strict weak ordering. -/
theorem keyComp_weak (key : List Nat → Nat) : IsWeakComparator (keyComp key) := by
  constructor
  · intro a b
    unfold keyComp
    rcases Nat.lt_trichotomy (key a) (key b) with h | h | h
    · left; simp [h]
    · left; simp [h, Nat.lt_irrefl]
    · right; simp [h]
  · intro a b c hab hbc
    unfold keyComp at *
    split_ifs at * <;> omega

/-- Little-endian decoding of a 4-byte element as a 32-bit unsigned
integer. -/
def dec32 (l : List Nat) : Nat :=
  l.getD 0 0 + 256 * l.getD 1 0 + 65536 * l.getD 2 0 + 16777216 * l.getD 3 0

/-- Ascending comparator on 32-bit little-endian integers. -/
def comp32 : List Nat → List Nat → Int := keyComp dec32

/-- Ascending comparator on single-byte elements. -/
def cmpByte : List Nat → List Nat → Int := keyComp (fun l => l.getD 0 0)

/-- Comparator on single-byte elements that compares only `value / 10`
(so bytes with equal quotient compare equal while remaining
distinguishable): used to exhibit instability. -/
def cmpDiv10 : List Nat → List Nat → Int := keyComp (fun l => l.getD 0 0 / 10)

/-! ## Arithmetic helpers -/

theorem mul_lt_mul_iff_w {w a b : Nat} (hw : 0 < w) : w * a < w * b ↔ a < b := by
  constructor
  · intro h
    by_contra hh
    push_neg at hh
    exact absurd (Nat.mul_le_mul_left w hh) (by omega)
  · intro h
    have h1 := Nat.mul_le_mul_left w (Nat.succ_le_of_lt h)
    have h2 := Nat.mul_succ w a
    omega

theorem mul_sub_w {w g jE : Nat} (hg : g ≤ jE) : w * jE - w * g = w * (jE - g) := by
  have h1 : (jE - g) + g = jE := Nat.sub_add_cancel hg
  have h2 : w * ((jE - g) + g) = w * (jE - g) + w * g := Nat.mul_add w _ _
  rw [h1] at h2
  omega

/-! ## The gap recurrence -/

/-- Whenever the outer loop runs (entry gap at least 2), the updated and
clamped gap is strictly smaller.  Intermediate 64-bit wraparound cannot
break this: for `gap < 2 ^ 64` the product `5 * gap` is not a multiple of
`2 ^ 64` (5 is coprime to it), so the wrapped `5 * gap - 1` is the exact
value whenever `5 * gap` does not overflow and at most `5 * gap - 1`
otherwise; for `gap ≥ 2 ^ 64` the quotient is below `2 ^ 64 ≤ gap`. -/
theorem gapNext_lt {gap : Nat} (h2 : 2 ≤ gap) : gapNext gap < gap := by
  unfold gapNext gapStep
  have hx_lt : 5 * gap % 2 ^ 64 < 2 ^ 64 := Nat.mod_lt _ (by norm_num)
  have hx_le : 5 * gap % 2 ^ 64 ≤ 5 * gap := Nat.mod_le _ _
  by_cases hbig : gap < 2 ^ 64
  · have hx_ne : 5 * gap % 2 ^ 64 ≠ 0 := by
      intro h0
      have hdvd : 2 ^ 64 ∣ 5 * gap := Nat.dvd_of_mod_eq_zero h0
      have hcop : Nat.Coprime (2 ^ 64) 5 := by norm_num
      have hdg : (2 ^ 64 : Nat) ∣ gap := hcop.dvd_of_dvd_mul_left hdvd
      have hgap0 : 0 < gap := Nat.lt_of_lt_of_le (by norm_num) h2
      have h9 : 2 ^ 64 ≤ gap := Nat.le_of_dvd hgap0 hdg
      exact absurd (Nat.lt_of_lt_of_le hbig h9) (Nat.lt_irrefl gap)
    generalize 5 * gap % 2 ^ 64 = x at hx_lt hx_le hx_ne ⊢
    have hmod : (x + (2 ^ 64 - 1)) % 2 ^ 64 = x - 1 := by
      have h1 : x + (2 ^ 64 - 1) = (x - 1) + 1 * 2 ^ 64 := by omega
      rw [h1, Nat.add_mul_mod_self_right]
      exact Nat.mod_eq_of_lt (by omega)
    rw [hmod]
    have hdiv : (x - 1) / 11 < gap := by
      rw [Nat.div_lt_iff_lt_mul (by norm_num)]
      omega
    split <;> omega
  · have hm : (5 * gap % 2 ^ 64 + (2 ^ 64 - 1)) % 2 ^ 64 < 2 ^ 64 :=
      Nat.mod_lt _ (by norm_num)
    generalize (5 * gap % 2 ^ 64 + (2 ^ 64 - 1)) % 2 ^ 64 = A at hm ⊢
    have hq : A / 11 ≤ A := Nat.div_le_self _ _
    push_neg at hbig
    split <;> omega

/-- The clamp `if (gap == 0) gap = 1;` keeps the gap positive. -/
theorem gapNext_pos (gap : Nat) : 1 ≤ gapNext gap := by
  unfold gapNext
  split <;> omega

/-- From any positive starting gap the recurrence reaches 1 in fewer than
`gap` steps. -/
theorem gapNext_reaches_one : ∀ gap, 1 ≤ gap → ∃ m, m < gap ∧ gapNext^[m] gap = 1 := by
  intro gap
  induction gap using Nat.strong_induction_on with
  | _ gap ih =>
    intro h1
    by_cases h2 : 2 ≤ gap
    · obtain ⟨m, hm, hit⟩ := ih (gapNext gap) (gapNext_lt h2) (gapNext_pos gap)
      refine ⟨m + 1, ?_, ?_⟩
      · have := gapNext_lt h2
        omega
      · rw [Function.iterate_succ_apply]
        exact hit
    · have : gap = 1 := by omega
      exact ⟨0, by omega, by rw [this, Function.iterate_zero_apply]⟩

/-! ## Byte-level facts about `set`, `getD` and `swapLoop` -/

theorem getD_set_pair (buf : List Nat) (a b j : Nat) (ha : a < buf.length)
    (hb : b < buf.length) :
    ((buf.set a (buf.getD b 0)).set b (buf.getD a 0)).getD j 0 =
      if j = b then buf.getD a 0 else if j = a then buf.getD b 0
      else buf.getD j 0 := by
  by_cases hj : j < buf.length
  · have hj1 : j < ((buf.set a (buf.getD b 0)).set b (buf.getD a 0)).length := by
      simpa using hj
    rw [List.getD_eq_getElem _ _ hj1, List.getElem_set, List.getElem_set]
    by_cases hjb : j = b
    · rw [if_pos hjb.symm, if_pos hjb]
    · by_cases hja : j = a
      · rw [if_neg (fun h => hjb h.symm), if_pos hja.symm, if_neg hjb,
          if_pos hja]
      · rw [if_neg (fun h => hjb h.symm), if_neg (fun h => hja h.symm),
          if_neg hjb, if_neg hja, List.getD_eq_getElem _ _ hj]
  · push_neg at hj
    have hlen : ((buf.set a (buf.getD b 0)).set b (buf.getD a 0)).length ≤ j := by
      simpa using hj
    have hjb : j ≠ b := by omega
    have hja : j ≠ a := by omega
    rw [List.getD_eq_default _ _ hlen, if_neg hjb, if_neg hja,
      List.getD_eq_default _ _ hj]

theorem length_swapLoop : ∀ (s a b : Nat) (buf : List Nat),
    (swapLoop a b s buf).length = buf.length := by
  intro s
  induction s with
  | zero => intro a b buf; rfl
  | succ s ih =>
    intro a b buf
    rw [swapLoop, ih]
    simp

/-- Pointwise description of the byte-swap loop: with the two `s`-byte
regions disjoint and in bounds, it exchanges them and leaves every other
byte alone. -/
theorem swapLoop_getD : ∀ (s a b : Nat) (buf : List Nat), a + s ≤ b →
    b + s ≤ buf.length → ∀ i,
    (swapLoop a b s buf).getD i 0 =
      if a ≤ i ∧ i < a + s then buf.getD (b + (i - a)) 0
      else if b ≤ i ∧ i < b + s then buf.getD (a + (i - b)) 0
      else buf.getD i 0 := by
  intro s
  induction s with
  | zero =>
    intro a b buf hab hblen i
    rw [swapLoop]
    split_ifs with h1 h2
    · exact absurd h1.2 (by omega)
    · exact absurd h2.2 (by omega)
    · rfl
  | succ s ih =>
    intro a b buf hab hblen i
    rw [swapLoop]
    have ih2 := ih (a + 1) (b + 1) ((buf.set a (buf.getD b 0)).set b (buf.getD a 0))
      (by omega) (by simp; omega) i
    rw [ih2]
    have hpair : ∀ j, ((buf.set a (buf.getD b 0)).set b (buf.getD a 0)).getD j 0 =
        if j = b then buf.getD a 0 else if j = a then buf.getD b 0
        else buf.getD j 0 :=
      fun j => getD_set_pair buf a b j (by omega) (by omega)
    by_cases hia : i = a
    · have c1 : ¬ (a + 1 ≤ i ∧ i < a + 1 + s) := by omega
      have c2 : ¬ (b + 1 ≤ i ∧ i < b + 1 + s) := by omega
      have c3 : a ≤ i ∧ i < a + (s + 1) := by omega
      rw [if_neg c1, if_neg c2, hpair, if_neg (show ¬ i = b by omega),
        if_pos hia, if_pos c3, show b + (i - a) = b by omega]
    · by_cases hib : i = b
      · have c1 : ¬ (a + 1 ≤ i ∧ i < a + 1 + s) := by omega
        have c2 : ¬ (b + 1 ≤ i ∧ i < b + 1 + s) := by omega
        have c3 : ¬ (a ≤ i ∧ i < a + (s + 1)) := by omega
        have c4 : b ≤ i ∧ i < b + (s + 1) := by omega
        rw [if_neg c1, if_neg c2, hpair, if_pos hib, if_neg c3, if_pos c4,
          show a + (i - b) = a by omega]
      · by_cases hra : a + 1 ≤ i ∧ i < a + 1 + s
        · rw [if_pos hra, show b + 1 + (i - (a + 1)) = b + (i - a) by omega,
            hpair, if_neg (show ¬ b + (i - a) = b by omega),
            if_neg (show ¬ b + (i - a) = a by omega),
            if_pos (show a ≤ i ∧ i < a + (s + 1) by omega)]
        · by_cases hrb : b + 1 ≤ i ∧ i < b + 1 + s
          · rw [if_neg hra, if_pos hrb,
              show a + 1 + (i - (b + 1)) = a + (i - b) by omega,
              hpair, if_neg (show ¬ a + (i - b) = b by omega),
              if_neg (show ¬ a + (i - b) = a by omega),
              if_neg (show ¬ (a ≤ i ∧ i < a + (s + 1)) by omega),
              if_pos (show b ≤ i ∧ i < b + (s + 1) by omega)]
          · rw [if_neg hra, if_neg hrb, hpair, if_neg hib, if_neg hia,
              if_neg (show ¬ (a ≤ i ∧ i < a + (s + 1)) by omega),
              if_neg (show ¬ (b ≤ i ∧ i < b + (s + 1)) by omega)]

/-! ## Slices and chunks -/

theorem mul_succ_le {w t n : Nat} (h : t < n) : w * t + w ≤ w * n := by
  have h1 := Nat.mul_le_mul_left w (Nat.succ_le_of_lt h)
  have h2 := Nat.mul_succ w t
  omega

theorem length_readBytes {l : List Nat} {off len : Nat} (h : off + len ≤ l.length) :
    (readBytes l off len).length = len := by
  unfold readBytes
  rw [List.length_take, List.length_drop]
  omega

theorem getD_readBytes {l : List Nat} {off len i : Nat} (h : off + len ≤ l.length)
    (hi : i < len) : (readBytes l off len).getD i 0 = l.getD (off + i) 0 := by
  have hlt : i < (readBytes l off len).length := by rw [length_readBytes h]; exact hi
  have hlt2 : off + i < l.length := by omega
  rw [List.getD_eq_getElem _ _ hlt, List.getD_eq_getElem _ _ hlt2]
  unfold readBytes
  rw [List.getElem_take, List.getElem_drop]

theorem readBytes_eq_of_getD {l1 l2 : List Nat} {off1 off2 len : Nat}
    (h1 : off1 + len ≤ l1.length) (h2 : off2 + len ≤ l2.length)
    (hp : ∀ i, i < len → l1.getD (off1 + i) 0 = l2.getD (off2 + i) 0) :
    readBytes l1 off1 len = readBytes l2 off2 len := by
  apply List.ext_getElem
  · rw [length_readBytes h1, length_readBytes h2]
  · intro i hi1 hi2
    have hi : i < len := by rw [length_readBytes h1] at hi1; exact hi1
    calc (readBytes l1 off1 len)[i]
        = (readBytes l1 off1 len).getD i 0 := (List.getD_eq_getElem _ _ hi1).symm
      _ = l1.getD (off1 + i) 0 := getD_readBytes h1 hi
      _ = l2.getD (off2 + i) 0 := hp i hi
      _ = (readBytes l2 off2 len).getD i 0 := (getD_readBytes h2 hi).symm
      _ = (readBytes l2 off2 len)[i] := List.getD_eq_getElem _ _ hi2

theorem length_chunks (w : Nat) : ∀ (n : Nat) (l : List Nat),
    (chunks w n l).length = n := by
  intro n
  induction n with
  | zero => intro l; rfl
  | succ n ih => intro l; rw [chunks]; simp [ih]

theorem getD_chunks (w : Nat) : ∀ (n t : Nat) (l : List Nat), t < n →
    (chunks w n l).getD t [] = readBytes l (w * t) w := by
  intro n
  induction n with
  | zero => intro t l ht; omega
  | succ n ih =>
    intro t l ht
    cases t with
    | zero =>
      rw [chunks, List.getD_cons_zero, Nat.mul_zero]
      unfold readBytes
      rw [List.drop_zero]
    | succ t =>
      rw [chunks, List.getD_cons_succ, ih t (l.drop w) (by omega)]
      unfold readBytes
      rw [List.drop_drop]
      have h1 : w * (t + 1) = w * t + w := Nat.mul_succ w t
      rw [show w + w * t = w * (t + 1) by omega]

theorem elemAt_chunks {w n t : Nat} (ht : t < n) (l : List Nat) :
    (chunks w n l).getD t [] = elemAt w l t :=
  getD_chunks w n t l ht

/-- Element-level description of the byte-swap at two aligned, in-bounds,
distinct element offsets: element `p` receives the old element `q` and vice
versa; all other elements are untouched. -/
theorem elemAt_swap {w n : Nat} {buf : List Nat}
    (hlen : buf.length = w * n) {p q : Nat} (hpq : p < q) (hq : q < n)
    (t : Nat) (ht : t < n) :
    elemAt w (swapLoop (w * p) (w * q) w buf) t =
      if t = p then elemAt w buf q else if t = q then elemAt w buf p
      else elemAt w buf t := by
  have hp : p < n := Nat.lt_trans hpq hq
  have hab : w * p + w ≤ w * q := mul_succ_le hpq
  have hblen : w * q + w ≤ buf.length := by rw [hlen]; exact mul_succ_le hq
  have hswlen : (swapLoop (w * p) (w * q) w buf).length = buf.length :=
    length_swapLoop _ _ _ _
  have hsw := swapLoop_getD w (w * p) (w * q) buf hab hblen
  have hbp : w * p + w ≤ buf.length := by rw [hlen]; exact mul_succ_le hp
  have hbq : w * q + w ≤ buf.length := hblen
  have hbt : w * t + w ≤ buf.length := by rw [hlen]; exact mul_succ_le ht
  by_cases htp : t = p
  · rw [if_pos htp, htp]
    unfold elemAt
    refine readBytes_eq_of_getD (by omega) hbq ?_
    intro i hi
    rw [hsw (w * p + i),
      if_pos (show w * p ≤ w * p + i ∧ w * p + i < w * p + w by omega),
      show w * q + (w * p + i - w * p) = w * q + i by omega]
  · by_cases htq : t = q
    · rw [if_neg htp, if_pos htq, htq]
      unfold elemAt
      refine readBytes_eq_of_getD (by omega) hbp ?_
      intro i hi
      rw [hsw (w * q + i),
        if_neg (show ¬ (w * p ≤ w * q + i ∧ w * q + i < w * p + w) by omega),
        if_pos (show w * q ≤ w * q + i ∧ w * q + i < w * q + w by omega),
        show w * p + (w * q + i - w * q) = w * p + i by omega]
    · rw [if_neg htp, if_neg htq]
      unfold elemAt
      have d1 : w * t + w ≤ w * p ∨ w * p + w ≤ w * t := by
        rcases Nat.lt_or_ge t p with h | h
        · exact Or.inl (mul_succ_le h)
        · exact Or.inr (mul_succ_le (by omega))
      have d2 : w * t + w ≤ w * q ∨ w * q + w ≤ w * t := by
        rcases Nat.lt_or_ge t q with h | h
        · exact Or.inl (mul_succ_le h)
        · exact Or.inr (mul_succ_le (by omega))
      refine readBytes_eq_of_getD (by omega) hbt ?_
      intro i hi
      rw [hsw (w * t + i),
        if_neg (show ¬ (w * p ≤ w * t + i ∧ w * t + i < w * p + w) by omega),
        if_neg (show ¬ (w * q ≤ w * t + i ∧ w * t + i < w * q + w) by omega)]

/-! ## Length preservation through the loops -/

theorem length_innerLoop (comp : List Nat → List Nat → Int) (width wgap : Nat) :
    ∀ (fuel j : Nat) (buf : List Nat),
    ((innerLoop comp width wgap fuel j buf).1).length = buf.length := by
  intro fuel
  induction fuel with
  | zero => intro j buf; rfl
  | succ fuel ih =>
    intro j buf
    simp only [innerLoop]
    split
    · rfl
    · split
      · rfl
      · simp only []
        rw [ih, length_swapLoop]

theorem length_passLoop (comp : List Nat → List Nat → Int) (width wgap wnel : Nat) :
    ∀ (fuel i : Nat) (buf : List Nat),
    ((passLoop comp width wgap wnel fuel i buf).1).length = buf.length := by
  intro fuel
  induction fuel with
  | zero => intro i buf; rfl
  | succ fuel ih =>
    intro i buf
    simp only [passLoop]
    split
    · simp only []
      rw [ih, length_innerLoop]
    · rfl

theorem length_outerLoop (comp : List Nat → List Nat → Int) (width wnel : Nat) :
    ∀ (fuel gap : Nat) (buf : List Nat),
    ((outerLoop comp width wnel fuel gap buf).1).length = buf.length := by
  intro fuel
  induction fuel with
  | zero => intro gap buf; rfl
  | succ fuel ih =>
    intro gap buf
    simp only [outerLoop]
    split
    · simp only []
      rw [ih, length_passLoop]
    · rfl

theorem length_qsort (buf : List Nat) (nel width : Nat)
    (comp : List Nat → List Nat → Int) :
    (qsort buf nel width comp).length = buf.length :=
  length_outerLoop comp width (width * nel) (nel + 1) nel buf

/-! ## Permutation: each swap is a transposition of chunks -/

theorem getD_cons_set_perm {γ : Type} : ∀ (xs : List γ) (j : Nat) (x d : γ),
    j < xs.length → (xs.getD j d :: xs.set j x).Perm (x :: xs) := by
  intro xs
  induction xs with
  | nil => intro j x d h; simp at h
  | cons y t ih =>
    intro j x d h
    cases j with
    | zero =>
      rw [List.getD_cons_zero, List.set_cons_zero]
      exact List.Perm.swap x y t
    | succ j =>
      rw [List.getD_cons_succ, List.set_cons_succ]
      have h1 : (t.getD j d :: y :: t.set j x).Perm (y :: t.getD j d :: t.set j x) :=
        List.Perm.swap y (t.getD j d) (t.set j x)
      have h2 : (t.getD j d :: t.set j x).Perm (x :: t) :=
        ih j x d (by simpa using h)
      exact h1.trans ((h2.cons y).trans (List.Perm.swap x y t))

theorem setset_perm {γ : Type} : ∀ (l : List γ) (p q : Nat) (d : γ),
    p < l.length → q < l.length →
    ((l.set p (l.getD q d)).set q (l.getD p d)).Perm l := by
  intro l
  induction l with
  | nil => intro p q d hp _; simp at hp
  | cons x xs ih =>
    intro p q d hp hq
    cases p with
    | zero =>
      cases q with
      | zero =>
        simp
      | succ q =>
        rw [List.getD_cons_succ, List.getD_cons_zero, List.set_cons_zero,
          List.set_cons_succ]
        exact getD_cons_set_perm xs q x d (by simpa using hq)
    | succ p =>
      cases q with
      | zero =>
        rw [List.getD_cons_zero, List.getD_cons_succ, List.set_cons_succ,
          List.set_cons_zero]
        exact getD_cons_set_perm xs p x d (by simpa using hp)
      | succ q =>
        rw [List.getD_cons_succ, List.getD_cons_succ, List.set_cons_succ,
          List.set_cons_succ]
        exact (ih p q d (by simpa using hp) (by simpa using hq)).cons x

/-- The byte-level swap of two aligned in-bounds elements permutes the
chunk list. -/
theorem chunks_swap_perm {w n : Nat} {buf : List Nat} (hlen : buf.length = w * n)
    {p q : Nat} (hpq : p < q) (hq : q < n) :
    (chunks w n (swapLoop (w * p) (w * q) w buf)).Perm (chunks w n buf) := by
  have hp : p < n := Nat.lt_trans hpq hq
  have he : chunks w n (swapLoop (w * p) (w * q) w buf) =
      ((chunks w n buf).set p ((chunks w n buf).getD q [])).set q
        ((chunks w n buf).getD p []) := by
    apply List.ext_getElem
    · rw [length_chunks]
      simp [length_chunks]
    · intro t h1 h2
      have htn : t < n := by rw [length_chunks] at h1; exact h1
      have hstep : (chunks w n (swapLoop (w * p) (w * q) w buf))[t] =
          if t = p then elemAt w buf q else if t = q then elemAt w buf p
          else elemAt w buf t := by
        rw [← List.getD_eq_getElem _ ([] : List Nat) h1, elemAt_chunks htn,
          elemAt_swap hlen hpq hq t htn]
      rw [hstep, List.getElem_set, List.getElem_set]
      by_cases htq : t = q
      · rw [if_neg (by omega : ¬ t = p), if_pos htq, if_pos htq.symm,
          ← elemAt_chunks hp, List.getD_eq_getElem _ _ (by rw [length_chunks]; exact hp)]
      · by_cases htp : t = p
        · rw [if_pos htp, if_neg (fun h => htq h.symm), if_pos htp.symm,
            ← elemAt_chunks hq, List.getD_eq_getElem _ _ (by rw [length_chunks]; exact hq)]
        · rw [if_neg htp, if_neg htq, if_neg (fun h => htq h.symm),
            if_neg (fun h => htp h.symm), ← elemAt_chunks htn,
            List.getD_eq_getElem _ _ (by rw [length_chunks]; exact htn)]
  rw [he]
  exact setset_perm (chunks w n buf) p q []
    (by rw [length_chunks]; exact hp) (by rw [length_chunks]; exact hq)

theorem inner_perm (comp : List Nat → List Nat → Int) {w n g : Nat} (hw : 0 < w)
    (hg : 1 ≤ g) : ∀ (fuel j : Nat) (buf : List Nat) (jE : Nat), j = w * jE →
    jE < n → buf.length = w * n →
    (chunks w n ((innerLoop comp w (w * g) fuel j buf).1)).Perm (chunks w n buf) := by
  intro fuel
  induction fuel with
  | zero => intro j buf jE hj hje hlen; exact List.Perm.refl _
  | succ fuel ih =>
    intro j buf jE hj hje hlen
    subst hj
    simp only [innerLoop]
    split
    · exact List.Perm.refl _
    · rename_i hge
      split
      · exact List.Perm.refl _
      · simp only []
        have hgje : g ≤ jE := Nat.le_of_mul_le_mul_left (Nat.le_of_not_lt hge) hw
        rw [mul_sub_w hgje]
        have hswlen : (swapLoop (w * (jE - g)) (w * jE) w buf).length = w * n := by
          rw [length_swapLoop, hlen]
        have h1 := ih (w * (jE - g)) (swapLoop (w * (jE - g)) (w * jE) w buf)
          (jE - g) rfl (by omega) hswlen
        have h2 : (chunks w n (swapLoop (w * (jE - g)) (w * jE) w buf)).Perm
            (chunks w n buf) := chunks_swap_perm hlen (by omega) hje
        exact h1.trans h2

theorem pass_perm (comp : List Nat → List Nat → Int) {w n g : Nat} (hw : 0 < w)
    (hg : 1 ≤ g) : ∀ (fuel i : Nat) (buf : List Nat) (k : Nat), i = w * k →
    buf.length = w * n →
    (chunks w n ((passLoop comp w (w * g) (w * n) fuel i buf).1)).Perm
      (chunks w n buf) := by
  intro fuel
  induction fuel with
  | zero => intro i buf k hi hlen; exact List.Perm.refl _
  | succ fuel ih =>
    intro i buf k hi hlen
    subst hi
    simp only [passLoop]
    split
    · rename_i hlt
      simp only []
      have hkn : k < n := (mul_lt_mul_iff_w hw).mp hlt
      have hinlen : ((innerLoop comp w (w * g) (w * k + 1) (w * k) buf).1).length
          = w * n := by rw [length_innerLoop, hlen]
      have h1 := ih (w * k + w) ((innerLoop comp w (w * g) (w * k + 1) (w * k) buf).1)
        (k + 1) (by have h9 : w * (k + 1) = w * k + w := Nat.mul_succ w k; omega) hinlen
      have h2 := inner_perm comp hw hg (w * k + 1) (w * k) buf k rfl hkn hlen
      exact h1.trans h2
    · exact List.Perm.refl _

theorem outer_perm (comp : List Nat → List Nat → Int) {w n : Nat} (hw : 0 < w) :
    ∀ (fuel gap : Nat) (buf : List Nat), buf.length = w * n →
    (chunks w n ((outerLoop comp w (w * n) fuel gap buf).1)).Perm
      (chunks w n buf) := by
  intro fuel
  induction fuel with
  | zero => intro gap buf hlen; exact List.Perm.refl _
  | succ fuel ih =>
    intro gap buf hlen
    simp only [outerLoop]
    split
    · simp only []
      have hplen : ((passLoop comp w (w * gapNext gap) (w * n) (w * n)
          (w * gapNext gap) buf).1).length = w * n := by
        rw [length_passLoop, hlen]
      have h1 := ih (gapNext gap) _ hplen
      have h2 := pass_perm comp hw (gapNext_pos gap) (w * n) (w * gapNext gap)
        buf (gapNext gap) rfl hlen
      exact h1.trans h2
    · exact List.Perm.refl _

theorem qsort_chunks_perm {buf : List Nat} {nel width : Nat}
    (comp : List Nat → List Nat → Int) (hw : 0 < width)
    (hlen : buf.length = width * nel) :
    (chunks width nel (qsort buf nel width comp)).Perm (chunks width nel buf) :=
  outer_perm comp hw (nel + 1) nel buf hlen

/-! ## Sortedness: the final gap-1 pass is an insertion sort -/

theorem le_chain {comp : List Nat → List Nat → Int}
    (htr : ∀ a b c, comp a b ≤ 0 → comp b c ≤ 0 → comp a c ≤ 0)
    (f : Nat → List Nat) (K : Nat)
    (hadj : ∀ u, u + 1 < K → comp (f u) (f (u + 1)) ≤ 0) :
    ∀ s t, s < t → t < K → comp (f s) (f t) ≤ 0 := by
  intro s t
  induction t with
  | zero => intro h _; omega
  | succ t ih =>
    intro hst htK
    by_cases hst' : s = t
    · subst hst'
      exact hadj s htK
    · exact htr _ _ _ (ih (by omega) (by omega)) (hadj t htK)

/-- Invariant proof for the backward walk of the final (gap = 1) pass: if
the prefix below the moving element is sorted, the moving element and the
elements already shifted above it are pairwise in order, and every shifted
element dominates the whole prefix, then after the walk the first `k + 1`
elements are pairwise adjacent-ordered. -/
theorem inner1_sorts (comp : List Nat → List Nat → Int) {w n : Nat} (hw : 0 < w)
    (hto : ∀ a b, comp a b ≤ 0 ∨ comp b a ≤ 0)
    (htr : ∀ a b c, comp a b ≤ 0 → comp b c ≤ 0 → comp a c ≤ 0) :
    ∀ (fuel jE k : Nat) (buf : List Nat), w * jE + 1 ≤ fuel →
    buf.length = w * n → k < n → jE ≤ k →
    (∀ t, t + 1 < jE → comp (elemAt w buf t) (elemAt w buf (t + 1)) ≤ 0) →
    (∀ t, jE ≤ t → t < k → comp (elemAt w buf t) (elemAt w buf (t + 1)) ≤ 0) →
    (∀ s t, s < jE → jE < t → t ≤ k →
      comp (elemAt w buf s) (elemAt w buf t) ≤ 0) →
    ∀ t, t < k →
      comp (elemAt w ((innerLoop comp w w fuel (w * jE) buf).1) t)
        (elemAt w ((innerLoop comp w w fuel (w * jE) buf).1) (t + 1)) ≤ 0 := by
  intro fuel
  induction fuel with
  | zero =>
    intro jE k buf hfuel
    omega
  | succ fuel ih =>
    intro jE k buf hfuel hlen hkn hjek inv1 inv2 inv3
    have hjen : jE < n := by omega
    simp only [innerLoop]
    split
    · rename_i hlt
      have hje0 : jE = 0 := by
        by_contra hne
        have h1 : 1 ≤ jE := by omega
        have h2 := Nat.mul_le_mul_left w h1
        rw [Nat.mul_one] at h2
        omega
      intro t ht
      exact inv2 t (by omega) ht
    · rename_i hge
      have hje1 : 1 ≤ jE := by
        by_contra hne
        have : jE = 0 := by omega
        rw [this, Nat.mul_zero] at hge
        omega
      have hsub : w * jE - w = w * (jE - 1) := by
        have h1 : w * jE - w * 1 = w * (jE - 1) := mul_sub_w hje1
        rw [Nat.mul_one] at h1
        exact h1
      rw [hsub]
      split
      · rename_i hcmp
        intro t ht
        rcases Nat.lt_trichotomy (t + 1) jE with h | h | h
        · exact inv1 t h
        · rw [show t = jE - 1 by omega, show jE - 1 + 1 = jE by omega]
          exact hcmp
        · exact inv2 t (by omega) ht
      · rename_i hcmp
        simp only []
        set buf' := swapLoop (w * (jE - 1)) (w * jE) w buf with hbufdef
        have hE : ∀ t, t < n → elemAt w buf' t =
            if t = jE - 1 then elemAt w buf jE
            else if t = jE then elemAt w buf (jE - 1) else elemAt w buf t :=
          fun t ht => elemAt_swap hlen (show jE - 1 < jE by omega) hjen t ht
        have hv : ∀ t, t < n → t ≠ jE - 1 → t ≠ jE →
            elemAt w buf' t = elemAt w buf t := by
          intro t ht h1 h2
          rw [hE t ht, if_neg h1, if_neg h2]
        have hva : elemAt w buf' (jE - 1) = elemAt w buf jE := by
          rw [hE (jE - 1) (by omega), if_pos rfl]
        have hvb : elemAt w buf' jE = elemAt w buf (jE - 1) := by
          rw [hE jE hjen, if_neg (by omega), if_pos rfl]
        have hflip : comp (elemAt w buf jE) (elemAt w buf (jE - 1)) ≤ 0 := by
          rcases hto (elemAt w buf (jE - 1)) (elemAt w buf jE) with h | h
          · exact absurd h hcmp
          · exact h
        have hlen' : buf'.length = w * n := by
          rw [hbufdef, length_swapLoop, hlen]
        have hfuel' : w * (jE - 1) + 1 ≤ fuel := by
          have h9 : w * ((jE - 1) + 1) = w * (jE - 1) + w := Nat.mul_succ w (jE - 1)
          rw [show jE - 1 + 1 = jE by omega] at h9
          omega
        have inv1' : ∀ t, t + 1 < jE - 1 →
            comp (elemAt w buf' t) (elemAt w buf' (t + 1)) ≤ 0 := by
          intro t ht
          rw [hv t (by omega) (by omega) (by omega),
            hv (t + 1) (by omega) (by omega) (by omega)]
          exact inv1 t (by omega)
        have inv2' : ∀ t, jE - 1 ≤ t → t < k →
            comp (elemAt w buf' t) (elemAt w buf' (t + 1)) ≤ 0 := by
          intro t hta htb
          rcases Nat.lt_trichotomy t jE with h | h | h
          · have hte : t = jE - 1 := by omega
            rw [hte, hva, show jE - 1 + 1 = jE by omega, hvb]
            exact hflip
          · rw [h, hvb, hv (jE + 1) (by omega) (by omega) (by omega)]
            rw [show jE + 1 = (jE - 1) + 2 by omega] at *
            exact inv3 (jE - 1) ((jE - 1) + 2) (by omega) (by omega) (by omega)
          · rw [hv t (by omega) (by omega) (by omega),
              hv (t + 1) (by omega) (by omega) (by omega)]
            exact inv2 t (by omega) htb
        have inv3' : ∀ s t, s < jE - 1 → jE - 1 < t → t ≤ k →
            comp (elemAt w buf' s) (elemAt w buf' t) ≤ 0 := by
          intro s t hs hta htb
          rw [hv s (by omega) (by omega) (by omega)]
          rcases Nat.lt_trichotomy t jE with h | h | h
          · omega
          · rw [h, hvb]
            exact le_chain htr (elemAt w buf) jE inv1 s (jE - 1) (by omega)
              (by omega)
          · rw [hv t (by omega) (by omega) (by omega)]
            exact inv3 s t (by omega) h htb
        exact ih (jE - 1) k buf' hfuel' hlen' hkn (by omega) inv1' inv2' inv3'

/-- The gap-1 pass (`wgap = width`) of the outer loop is a full insertion
sort: starting at element `k ≥ 1` with the first `k` elements already
pairwise ordered, it leaves every adjacent pair of the buffer ordered. -/
theorem pass1_sorts (comp : List Nat → List Nat → Int) {w n : Nat} (hw : 0 < w)
    (hto : ∀ a b, comp a b ≤ 0 ∨ comp b a ≤ 0)
    (htr : ∀ a b c, comp a b ≤ 0 → comp b c ≤ 0 → comp a c ≤ 0) :
    ∀ (fuel i k : Nat) (buf : List Nat), i = w * k → n ≤ k + fuel → 1 ≤ k →
    buf.length = w * n →
    (∀ t, t + 1 < k → comp (elemAt w buf t) (elemAt w buf (t + 1)) ≤ 0) →
    ∀ t, t + 1 < n →
      comp (elemAt w ((passLoop comp w w (w * n) fuel i buf).1) t)
        (elemAt w ((passLoop comp w w (w * n) fuel i buf).1) (t + 1)) ≤ 0 := by
  intro fuel
  induction fuel with
  | zero =>
    intro i k buf hi hnk hk hlen pfx t ht
    exact pfx t (by omega)
  | succ fuel ih =>
    intro i k buf hi hnk hk hlen pfx
    subst hi
    simp only [passLoop]
    split
    · rename_i hlt
      simp only []
      have hkn : k < n := (mul_lt_mul_iff_w hw).mp hlt
      have hsorted := inner1_sorts comp hw hto htr (w * k + 1) k k buf
        (Nat.le_refl _) hlen hkn (Nat.le_refl k) pfx
        (fun t h1 h2 => absurd h1 (by omega))
        (fun s t _ h2 h3 => absurd h2 (by omega))
      have hinlen : ((innerLoop comp w w (w * k + 1) (w * k) buf).1).length
          = w * n := by rw [length_innerLoop, hlen]
      have hmul : w * k + w = w * (k + 1) := by
        have h9 : w * (k + 1) = w * k + w := Nat.mul_succ w k
        omega
      exact ih (w * k + w) (k + 1)
        ((innerLoop comp w w (w * k + 1) (w * k) buf).1) hmul (by omega)
        (by omega) hinlen (fun t ht => hsorted t (by omega))
    · rename_i hge
      have hnk' : n ≤ k := by
        have := (mul_lt_mul_iff_w (a := k) (b := n) hw).mpr
        by_contra hc
        push_neg at hc
        exact hge (this hc)
      intro t ht
      exact pfx t (by omega)

/-- Every run of the outer loop entered with `gap ≥ 2` and enough fuel ends
with a pass at gap 1 on some intermediate buffer of the same length. -/
theorem outer_final (comp : List Nat → List Nat → Int) {w n : Nat} :
    ∀ (fuel gap : Nat) (buf : List Nat), 2 ≤ gap → gap ≤ fuel →
    ∃ b : List Nat, b.length = buf.length ∧
      (outerLoop comp w (w * n) fuel gap buf).1 =
        (passLoop comp w w (w * n) (w * n) w b).1 := by
  intro fuel
  induction fuel with
  | zero =>
    intro gap buf h2 hle
    omega
  | succ fuel ih =>
    intro gap buf h2 hle
    simp only [outerLoop]
    rw [if_pos (show 1 < gap by omega)]
    by_cases hg1 : gapNext gap = 1
    · refine ⟨buf, rfl, ?_⟩
      have hfuel1 : 1 ≤ fuel := by
        have := gapNext_lt h2
        omega
      obtain ⟨f, rfl⟩ : ∃ f, fuel = f + 1 := ⟨fuel - 1, by omega⟩
      rw [hg1, Nat.mul_one]
      simp only [outerLoop]
      rw [if_neg (by omega : ¬ 1 < 1)]
    · have h2' : 2 ≤ gapNext gap := by
        have := gapNext_pos gap
        omega
      have hlt := gapNext_lt h2
      obtain ⟨b, hb, he⟩ := ih (gapNext gap)
        ((passLoop comp w (w * gapNext gap) (w * n) (w * n)
          (w * gapNext gap) buf).1) h2' (by omega)
      refine ⟨b, ?_, he⟩
      rw [hb, length_passLoop]

/-- After `qsort`, under a strict-weak-ordering comparator, every adjacent
pair of elements is ordered. -/
theorem qsort_sorted_of_weak {buf : List Nat} {nel width : Nat}
    {comp : List Nat → List Nat → Int} (hw : 0 < width)
    (hlen : buf.length = width * nel) (hc : IsWeakComparator comp) :
    ∀ t, t + 1 < nel →
      comp (elemAt width (qsort buf nel width comp) t)
        (elemAt width (qsort buf nel width comp) (t + 1)) ≤ 0 := by
  by_cases hn : 2 ≤ nel
  · obtain ⟨b, hb, he⟩ := outer_final comp (n := nel) (nel + 1) nel buf hn
      (by omega)
    unfold qsort qsortT
    rw [he]
    have hwn : nel ≤ width * nel := by
      have h9 := Nat.mul_le_mul_right nel hw
      rw [Nat.one_mul] at h9
      exact h9
    exact pass1_sorts comp hw hc.total hc.trans (width * nel) width 1 b
      (Nat.mul_one width).symm (by omega) (Nat.le_refl 1)
      (by rw [hb, hlen]) (fun t ht => absurd ht (by omega))
  · intro t ht
    omega

/-! ## A sorted buffer is left untouched: every walk breaks at once -/

theorem inner_sorted_id (comp : List Nat → List Nat → Int) {w n g : Nat}
    (hg : 1 ≤ g)
    (htr : ∀ a b c, comp a b ≤ 0 → comp b c ≤ 0 → comp a c ≤ 0) :
    ∀ (fuel k : Nat) (buf : List Nat), 1 ≤ fuel → g ≤ k → k < n →
    buf.length = w * n →
    (∀ t, t + 1 < n → comp (elemAt w buf t) (elemAt w buf (t + 1)) ≤ 0) →
    innerLoop comp w (w * g) fuel (w * k) buf =
      (buf, [Ev.cmp (w * g) (w * (k - g)) (w * k)]) := by
  intro fuel k buf hfuel hgk hkn hlen hsorted
  obtain ⟨f, rfl⟩ : ∃ f, fuel = f + 1 := ⟨fuel - 1, by omega⟩
  simp only [innerLoop]
  rw [if_neg (by
    have h9 := Nat.mul_le_mul_left w hgk
    omega : ¬ w * k < w * g)]
  rw [mul_sub_w hgk]
  rw [if_pos (show comp (readBytes buf (w * (k - g)) w) (readBytes buf (w * k) w)
      ≤ 0 from le_chain htr (elemAt w buf) n hsorted (k - g) k (by omega) hkn)]

theorem pass_sorted_id (comp : List Nat → List Nat → Int) {w n g : Nat}
    (hw : 0 < w) (hg : 1 ≤ g)
    (htr : ∀ a b c, comp a b ≤ 0 → comp b c ≤ 0 → comp a c ≤ 0) :
    ∀ (fuel i k : Nat) (buf : List Nat), i = w * k → g ≤ k →
    buf.length = w * n →
    (∀ t, t + 1 < n → comp (elemAt w buf t) (elemAt w buf (t + 1)) ≤ 0) →
    ((passLoop comp w (w * g) (w * n) fuel i buf).1 = buf ∧
      ∀ e ∈ (passLoop comp w (w * g) (w * n) fuel i buf).2,
        ∃ wg a b, e = Ev.cmp wg a b) := by
  intro fuel
  induction fuel with
  | zero =>
    intro i k buf hi hgk hlen hsorted
    exact ⟨rfl, by intro e he; simp [passLoop] at he⟩
  | succ fuel ih =>
    intro i k buf hi hgk hlen hsorted
    subst hi
    simp only [passLoop]
    split
    · rename_i hlt
      have hkn : k < n := (mul_lt_mul_iff_w hw).mp hlt
      rw [inner_sorted_id comp hg htr (w * k + 1) k buf (by omega) hgk hkn
        hlen hsorted]
      have hmul : w * k + w = w * (k + 1) := by
        have h9 : w * (k + 1) = w * k + w := Nat.mul_succ w k
        omega
      obtain ⟨h1, h2⟩ := ih (w * k + w) (k + 1) buf hmul (by omega) hlen hsorted
      refine ⟨h1, ?_⟩
      intro e he
      simp only [List.mem_append, List.mem_singleton] at he
      rcases he with he | he
      · exact ⟨w * g, w * (k - g), w * k, he⟩
      · exact h2 e he
    · exact ⟨rfl, by intro e he; simp at he⟩

theorem outer_sorted_id (comp : List Nat → List Nat → Int) {w n : Nat}
    (hw : 0 < w)
    (htr : ∀ a b c, comp a b ≤ 0 → comp b c ≤ 0 → comp a c ≤ 0) :
    ∀ (fuel gap : Nat) (buf : List Nat), buf.length = w * n →
    (∀ t, t + 1 < n → comp (elemAt w buf t) (elemAt w buf (t + 1)) ≤ 0) →
    ((outerLoop comp w (w * n) fuel gap buf).1 = buf ∧
      ∀ e ∈ (outerLoop comp w (w * n) fuel gap buf).2,
        ∃ wg a b, e = Ev.cmp wg a b) := by
  intro fuel
  induction fuel with
  | zero =>
    intro gap buf hlen hsorted
    exact ⟨rfl, by intro e he; simp [outerLoop] at he⟩
  | succ fuel ih =>
    intro gap buf hlen hsorted
    simp only [outerLoop]
    split
    · obtain ⟨h1, h2⟩ := pass_sorted_id comp hw (gapNext_pos gap) htr (w * n)
        (w * gapNext gap) (gapNext gap) buf rfl (Nat.le_refl _) hlen hsorted
      rw [h1]
      obtain ⟨h3, h4⟩ := ih (gapNext gap) buf hlen hsorted
      refine ⟨h3, ?_⟩
      intro e he
      simp only [List.mem_append] at he
      rcases he with he | he
      · exact h2 e he
      · exact h4 e he
    · exact ⟨rfl, by intro e he; simp at he⟩

/-- On an already-sorted buffer `qsort` changes nothing and performs no
swap (its trace consists of comparator invocations only). -/
theorem qsort_sorted_id {buf : List Nat} {nel width : Nat}
    {comp : List Nat → List Nat → Int} (hw : 0 < width)
    (hlen : buf.length = width * nel)
    (htr : ∀ a b c, comp a b ≤ 0 → comp b c ≤ 0 → comp a c ≤ 0)
    (hsorted : ∀ t, t + 1 < nel →
      comp (elemAt width buf t) (elemAt width buf (t + 1)) ≤ 0) :
    qsort buf nel width comp = buf ∧
      ∀ e ∈ (qsortT buf nel width comp).2, ∃ wg a b, e = Ev.cmp wg a b :=
  outer_sorted_id comp hw htr (nel + 1) nel buf hlen hsorted

/-- Sorting twice gives the same buffer as sorting once. -/
theorem qsort_idem {buf : List Nat} {nel width : Nat}
    {comp : List Nat → List Nat → Int} (hw : 0 < width)
    (hlen : buf.length = width * nel) (hc : IsWeakComparator comp) :
    qsort (qsort buf nel width comp) nel width comp
      = qsort buf nel width comp := by
  have hlen2 : (qsort buf nel width comp).length = width * nel := by
    rw [length_qsort, hlen]
  exact (qsort_sorted_id hw hlen2 hc.trans
    (qsort_sorted_of_weak hw hlen hc)).1

/-! ## Every observed access is aligned and in bounds -/

theorem inner_events (comp : List Nat → List Nat → Int) {w n g : Nat}
    (hw : 0 < w) (hg : 1 ≤ g) :
    ∀ (fuel j : Nat) (buf : List Nat) (jE : Nat), j = w * jE → jE < n →
    ∀ e ∈ (innerLoop comp w (w * g) fuel j buf).2, EvOk w n e := by
  intro fuel
  induction fuel with
  | zero =>
    intro j buf jE hj hje e he
    simp [innerLoop] at he
  | succ fuel ih =>
    intro j buf jE hj hje e he
    subst hj
    simp only [innerLoop] at he
    split at he
    · simp at he
    · rename_i hge
      have hgje : g ≤ jE := Nat.le_of_mul_le_mul_left (Nat.le_of_not_lt hge) hw
      rw [mul_sub_w hgje] at he
      have hadd : w * (jE - g) + w * g = w * jE := by
        have h9 := Nat.mul_le_mul_left w hgje
        have h10 := mul_sub_w (w := w) hgje
        omega
      have hbound : w * jE + w ≤ w * n := mul_succ_le hje
      split at he
      · simp only [List.mem_singleton] at he
        subst he
        exact ⟨g, jE - g, hg, rfl, rfl, by omega, by omega⟩
      · simp only [List.mem_cons] at he
        rcases he with he | he | he
        · subst he
          exact ⟨g, jE - g, hg, rfl, rfl, by omega, by omega⟩
        · subst he
          exact ⟨g, jE - g, hg, rfl, by omega, hg, by omega⟩
        · exact ih (w * (jE - g)) _ (jE - g) rfl (by omega) e he

theorem pass_events (comp : List Nat → List Nat → Int) {w n g : Nat}
    (hw : 0 < w) (hg : 1 ≤ g) :
    ∀ (fuel i : Nat) (buf : List Nat) (k : Nat), i = w * k →
    ∀ e ∈ (passLoop comp w (w * g) (w * n) fuel i buf).2, EvOk w n e := by
  intro fuel
  induction fuel with
  | zero =>
    intro i buf k hi e he
    simp [passLoop] at he
  | succ fuel ih =>
    intro i buf k hi e he
    subst hi
    simp only [passLoop] at he
    split at he
    · rename_i hlt
      have hkn : k < n := (mul_lt_mul_iff_w hw).mp hlt
      simp only [List.mem_append] at he
      rcases he with he | he
      · exact inner_events comp hw hg (w * k + 1) (w * k) buf k rfl hkn e he
      · have hmul : w * k + w = w * (k + 1) := by
          have h9 : w * (k + 1) = w * k + w := Nat.mul_succ w k
          omega
        exact ih (w * k + w) _ (k + 1) hmul e he
    · simp at he

theorem outer_events (comp : List Nat → List Nat → Int) {w n : Nat}
    (hw : 0 < w) :
    ∀ (fuel gap : Nat) (buf : List Nat),
    ∀ e ∈ (outerLoop comp w (w * n) fuel gap buf).2, EvOk w n e := by
  intro fuel
  induction fuel with
  | zero =>
    intro gap buf e he
    simp [outerLoop] at he
  | succ fuel ih =>
    intro gap buf e he
    simp only [outerLoop] at he
    split at he
    · simp only [List.mem_append] at he
      rcases he with he | he
      · exact pass_events comp hw (gapNext_pos gap) (w * n) (w * gapNext gap)
          buf (gapNext gap) rfl e he
      · exact ih (gapNext gap) _ e he
    · simp at he

/-- Every event of a `qsort` call is an aligned, in-bounds access. -/
theorem qsort_events {buf : List Nat} {nel width : Nat}
    {comp : List Nat → List Nat → Int} (hw : 0 < width) :
    ∀ e ∈ (qsortT buf nel width comp).2, EvOk width nel e :=
  outer_events comp hw (nel + 1) nel buf

/-! ## The gaps used by the passes -/

theorem gapList_bounds {nel : Nat} : ∀ (fuel gap : Nat), gap ≤ nel →
    ∀ g ∈ gapList fuel gap, g < nel ∧ 1 ≤ g := by
  intro fuel
  induction fuel with
  | zero =>
    intro gap hle g hg
    simp [gapList] at hg
  | succ fuel ih =>
    intro gap hle g hg
    simp only [gapList] at hg
    split at hg
    · rename_i h1
      rcases List.mem_cons.mp hg with rfl | hmem
      · exact ⟨by have := gapNext_lt (show 2 ≤ gap by omega); omega,
          gapNext_pos gap⟩
      · exact ih (gapNext gap)
          (by have := gapNext_lt (show 2 ≤ gap by omega); omega) g hmem
    · simp at hg

/-! ## The claims -/

/-- C1: For every buffer of `nel` elements of `width` bytes (`width > 0`,
buffer valid for `width * nel` bytes) and every comparator forming a strict
weak ordering, after `qsort(base, nel, width, comp)` returns the buffer is
sorted: the comparator applied to every adjacent pair of elements (earlier,
later) returns a value `≤ 0`. -/
theorem qsort_sortedness (buf : List Nat) (nel width : Nat)
    (comp : List Nat → List Nat → Int) (hw : 0 < width)
    (hlen : buf.length = width * nel) (hc : IsWeakComparator comp)
    (t : Nat) (ht : t + 1 < nel) :
    comp ((chunks width nel (qsort buf nel width comp)).getD t [])
      ((chunks width nel (qsort buf nel width comp)).getD (t + 1) []) ≤ 0 := by
  rw [elemAt_chunks (show t < nel by omega), elemAt_chunks ht]
  exact qsort_sorted_of_weak hw hlen hc t ht

theorem qsort_sortedness_witness :
    cmpByte ((chunks 1 2 (qsort [1, 0] 2 1 cmpByte)).getD 0 [])
      ((chunks 1 2 (qsort [1, 0] 2 1 cmpByte)).getD 1 []) ≤ 0 :=
  qsort_sortedness [1, 0] 2 1 cmpByte (by decide) (by decide)
    (keyComp_weak _) 0 (by decide)

/-- C2: For every valid call, the multiset of `width`-byte elements held in
the buffer after the call equals the multiset before the call: the final
buffer is a permutation of the initial one. -/
theorem qsort_permutation (buf : List Nat) (nel width : Nat)
    (comp : List Nat → List Nat → Int) (hw : 0 < width)
    (hlen : buf.length = width * nel) :
    (chunks width nel (qsort buf nel width comp) : Multiset (List Nat)) =
      (chunks width nel buf : Multiset (List Nat)) :=
  Multiset.coe_eq_coe.mpr (qsort_chunks_perm comp hw hlen)

theorem qsort_permutation_witness :
    (chunks 1 3 (qsort [3, 1, 2] 3 1 cmpByte) : Multiset (List Nat)) =
      (chunks 1 3 [3, 1, 2] : Multiset (List Nat)) :=
  qsort_permutation [3, 1, 2] 3 1 cmpByte (by decide) (by decide)

/-- C3: If `nel = 0` or `nel = 1`, `qsort` returns immediately: the buffer
is unchanged and the trace is empty (no comparator invocation and no
swap). -/
theorem qsort_degenerate (buf : List Nat) (nel width : Nat)
    (comp : List Nat → List Nat → Int) (h : nel = 0 ∨ nel = 1) :
    qsortT buf nel width comp = (buf, []) := by
  rcases h with rfl | rfl <;> rfl

theorem qsort_degenerate_witness :
    qsortT [] 0 1 cmpByte = ([], []) :=
  qsort_degenerate [] 0 1 cmpByte (Or.inl rfl)

/-- C4: The gap is updated by `gap = (5 * gap - 1) / 11` in 64-bit unsigned
arithmetic, clamped to 1 when 0; for every `gap > 1` with `5 * gap` not
overflowing 64 bits the updated gap is strictly smaller, the sequence stays
positive, and iterating the update reaches 1 within a bounded number
(fewer than `gap`) of steps, so the outer loop terminates. -/
theorem gap_recurrence_strict_decrease (gap : Nat) (h1 : 1 < gap)
    (h2 : 5 * gap < 2 ^ 64) :
    gapNext gap < gap ∧ 1 ≤ gapNext gap ∧
      ∃ m, m < gap ∧ gapNext^[m] gap = 1 :=
  ⟨gapNext_lt h1, gapNext_pos gap, gapNext_reaches_one gap (by omega)⟩

theorem gap_recurrence_strict_decrease_witness :
    gapNext 7 < 7 ∧ 1 ≤ gapNext 7 ∧ ∃ m, m < 7 ∧ gapNext^[m] 7 = 1 :=
  gap_recurrence_strict_decrease 7 (by decide) (by decide)

/-- C5: If the buffer is already sorted under the comparator, `qsort`
leaves it byte-for-byte unchanged and performs no swap (every trace event
is a comparator invocation); and sorting twice yields the same contents as
sorting once. -/
theorem qsort_noop_idem (buf : List Nat) (nel width : Nat)
    (comp : List Nat → List Nat → Int) (hw : 0 < width)
    (hlen : buf.length = width * nel) (hc : IsWeakComparator comp) :
    ((∀ t, t + 1 < nel → comp ((chunks width nel buf).getD t [])
        ((chunks width nel buf).getD (t + 1) []) ≤ 0) →
      qsort buf nel width comp = buf ∧
        ∀ e ∈ (qsortT buf nel width comp).2, ∃ wg a b, e = Ev.cmp wg a b) ∧
    qsort (qsort buf nel width comp) nel width comp
      = qsort buf nel width comp := by
  constructor
  · intro hs
    refine qsort_sorted_id hw hlen hc.trans ?_
    intro t ht
    rw [← elemAt_chunks (show t < nel by omega), ← elemAt_chunks ht]
    exact hs t ht
  · exact qsort_idem hw hlen hc

theorem qsort_noop_idem_witness :
    qsort (qsort [7, 7, 7, 7] 4 1 cmpByte) 4 1 cmpByte
      = qsort [7, 7, 7, 7] 4 1 cmpByte :=
  (qsort_noop_idem [7, 7, 7, 7] 4 1 cmpByte (by decide) (by decide)
    (keyComp_weak _)).2

set_option maxRecDepth 40000 in
/-- C6: For `width = 4` and six 32-bit little-endian integer elements
`[5, 3, 8, 1, 9, 2]` under the ascending comparator, `qsort` leaves the
buffer holding `[1, 2, 3, 5, 8, 9]`. -/
theorem qsort_example_ints :
    qsort [5, 0, 0, 0, 3, 0, 0, 0, 8, 0, 0, 0, 1, 0, 0, 0, 9, 0, 0, 0,
        2, 0, 0, 0] 6 4 comp32
      = [1, 0, 0, 0, 2, 0, 0, 0, 3, 0, 0, 0, 5, 0, 0, 0, 8, 0, 0, 0,
        9, 0, 0, 0] ∧
    (chunks 4 6 [5, 0, 0, 0, 3, 0, 0, 0, 8, 0, 0, 0, 1, 0, 0, 0, 9, 0, 0, 0,
        2, 0, 0, 0]).map dec32 = [5, 3, 8, 1, 9, 2] ∧
    (chunks 4 6 (qsort [5, 0, 0, 0, 3, 0, 0, 0, 8, 0, 0, 0, 1, 0, 0, 0,
        9, 0, 0, 0, 2, 0, 0, 0] 6 4 comp32)).map dec32
      = [1, 2, 3, 5, 8, 9] := by
  refine ⟨by decide, by decide, by decide⟩

/-- C7: With `width > 0`, every pass of the outer loop started from
`gap = nel` runs with a gap strictly below `nel`, so `wgap = width * gap`
is strictly below `wnel = width * nel` and the `__builtin_assume(wgap <
wnel)` condition holds on every execution.  `gapList (nel + 1) nel` is the
sequence of gap values the passes of `qsortT` use. -/
theorem gap_assume_sound (width nel : Nat) (hw : 0 < width) :
    ∀ g ∈ gapList (nel + 1) nel, g < nel ∧ width * g < width * nel := by
  intro g hg
  obtain ⟨h1, h2⟩ := gapList_bounds (nel + 1) nel (Nat.le_refl nel) g hg
  exact ⟨h1, (mul_lt_mul_iff_w hw).mpr h1⟩

theorem gap_assume_sound_witness : 2 < 5 ∧ 1 * 2 < 1 * 5 :=
  gap_assume_sound 1 5 (by decide) 2 (by decide)

set_option maxRecDepth 40000 in
/-- C8: `qsort` is not stable: for the buffer `[10, 10, 10, 0, 1]` of five
one-byte elements under the strict-weak-ordering comparator that compares
`value / 10`, the elements `0` and `1` compare equal and have distinct
bytes, `0` precedes `1` before the call (positions 3 and 4), and `1`
precedes `0` after the call (positions 0 and 1). -/
theorem qsort_not_stable :
    IsWeakComparator cmpDiv10 ∧
    cmpDiv10 [0] [1] = 0 ∧ ([0] : List Nat) ≠ [1] ∧
    (chunks 1 5 [10, 10, 10, 0, 1]).getD 3 [] = [0] ∧
    (chunks 1 5 [10, 10, 10, 0, 1]).getD 4 [] = [1] ∧
    (chunks 1 5 (qsort [10, 10, 10, 0, 1] 5 1 cmpDiv10)).getD 0 [] = [1] ∧
    (chunks 1 5 (qsort [10, 10, 10, 0, 1] 5 1 cmpDiv10)).getD 1 [] = [0] :=
  ⟨keyComp_weak _, by decide, by decide, by decide, by decide, by decide,
    by decide⟩

/-- C9: During a valid call every comparator invocation receives two
offsets `a` and `b = a + width * gap` that start complete in-bounds
elements, every swap exchanges two such elements, all accesses stay within
`[0, width * nel)`, and the buffer keeps its length. -/
theorem qsort_access_bounds (buf : List Nat) (nel width : Nat)
    (comp : List Nat → List Nat → Int) (hw : 0 < width)
    (hlen : buf.length = width * nel) :
    (∀ e ∈ (qsortT buf nel width comp).2, EvOk width nel e) ∧
    (qsort buf nel width comp).length = width * nel :=
  ⟨qsort_events hw, by rw [length_qsort, hlen]⟩

theorem qsort_access_bounds_witness :
    (qsort [1, 0] 2 1 cmpByte).length = 1 * 2 :=
  (qsort_access_bounds [1, 0] 2 1 cmpByte (by decide) (by decide)).2

/-- C10: `qsort` is deterministic: two calls with identical buffers,
counts, widths and comparators produce identical final buffers and
identical traces (the same comparator invocations at the same offsets in
the same order). -/
theorem qsort_deterministic (buf1 buf2 : List Nat) (nel1 nel2 width1 width2 : Nat)
    (comp1 comp2 : List Nat → List Nat → Int) (h1 : buf1 = buf2)
    (h2 : nel1 = nel2) (h3 : width1 = width2) (h4 : comp1 = comp2) :
    qsortT buf1 nel1 width1 comp1 = qsortT buf2 nel2 width2 comp2 := by
  subst h1
  subst h2
  subst h3
  subst h4
  rfl

theorem qsort_deterministic_witness :
    qsortT [2, 1] 2 1 cmpByte = qsortT [2, 1] 2 1 cmpByte :=
  qsort_deterministic [2, 1] [2, 1] 2 2 1 1 cmpByte cmpByte rfl rfl rfl rfl
